import Mathlib

/-!
Verification of `espaloma/data/alkethoh/independent_baseline.py`.

The file embeds, as Lean definitions, the canonicalizer (`canonicalize_order`),
the equivalence-class assigners (`get_unique_bonds`, `get_unique_angles`,
`get_unique_torsions`) and the three potential evaluators
(`compute_harmonic_bond_potential`, `compute_harmonic_angle_potential`,
`compute_periodic_torsion_potential`) of that module, and proves the spec's
claims about them.

Modelling conventions:
* Symmetry classes are integers (`ℤ`); tuples of symmetry classes are `List ℤ`
  so that one canonicalizer serves arity 2, 3 and 4, as in the source.
* Python `min(tup, tup[::-1])` uses tuple lexicographic `<`, embedded as
  `pyLt` below.
* `set`/`dict` iteration order in CPython is unspecified; the assigners'
  `dict(zip(set(tups), range(...)))` is embedded with a first-occurrence
  (`List.dedup`) enumeration of the set, one fixed deterministic instance of
  the unspecified order.  Every claim proved about ids is order-insensitive.
* numpy fancy indexing `a[inds]` raises on an out-of-range index; it is
  embedded as an `Option`-returning map (`fancyIndex`).  `np.reshape` raises
  on a size mismatch; embedded as `reshapeRows`.
* The geometry kernels `compute_distances`, `compute_angles`,
  `compute_torsions` (neural_baseline.py) and the scalar formulas
  `harmonic_bond_potential`, `harmonic_angle_potential`,
  `periodic_torsion_potential` (mm_utils.py) are repository code that is not
  part of the analysed file; the scalar formulas are modelled from the spec,
  the geometry kernels are abstracted as function parameters over an
  arbitrary linear ordered field (so reals with `cos`, or rationals for
  concrete evaluation, both instantiate them).
-/

/-- Python tuple comparison `a < b` (lexicographic, shorter strict prefix is
smaller), restricted to integer tuples as used by the source. -/
def pyLt : List ℤ → List ℤ → Bool
  | _, [] => false
  | [], _ :: _ => true
  | a :: as, b :: bs => if a < b then true else if b < a then false else pyLt as bs

/-- Embedding of `canonicalize_order(tup): return min(tup, tup[::-1])`.
Python `min(x, y)` returns `y` exactly when `y < x`. -/
def canonicalize_order (tup : List ℤ) : List ℤ :=
  if pyLt tup.reverse tup then tup.reverse else tup

theorem pyLt_irrefl (l : List ℤ) : pyLt l l = false := by
  induction l with
  | nil => rfl
  | cons a as ih => simp [pyLt, ih]

theorem pyLt_asymm : ∀ {a b : List ℤ}, pyLt a b = true → pyLt b a = false
  | _, [], h => by simp [pyLt] at h
  | [], _ :: _, _ => rfl
  | a :: as, b :: bs, h => by
    by_cases hab : a < b
    · simp [pyLt, hab, hab.asymm]
    · by_cases hba : b < a
      · simp [pyLt, hab, hba] at h
      · have hres : pyLt as bs = true := by simpa [pyLt, hab, hba] using h
        simp [pyLt, hab, hba, pyLt_asymm hres]

theorem pyLt_conn : ∀ {a b : List ℤ}, pyLt a b = false → pyLt b a = false → a = b
  | [], [], _, _ => rfl
  | [], _ :: _, h, _ => by simp [pyLt] at h
  | _ :: _, [], h₁, h₂ => by simp [pyLt] at h₁ h₂
  | a :: as, b :: bs, h₁, h₂ => by
    by_cases hab : a < b
    · simp [pyLt, hab] at h₁
    · by_cases hba : b < a
      · simp [pyLt, hba, hba.asymm] at h₂
      · have hab' : a = b := le_antisymm (not_lt.mp hba) (not_lt.mp hab)
        have h₁' : pyLt as bs = false := by simpa [pyLt, hab, hba] using h₁
        have h₂' : pyLt bs as = false := by simpa [pyLt, hab', pyLt] using h₂
        rw [hab', pyLt_conn h₁' h₂']

theorem canonicalize_order_cases (t : List ℤ) :
    canonicalize_order t = t ∨ canonicalize_order t = t.reverse := by
  unfold canonicalize_order
  by_cases h : pyLt t.reverse t = true
  · simp [h]
  · simp [h]

theorem canonicalize_order_length (t : List ℤ) :
    (canonicalize_order t).length = t.length := by
  rcases canonicalize_order_cases t with h | h <;> simp [h]

theorem canonicalize_order_reverse (t : List ℤ) :
    canonicalize_order t.reverse = canonicalize_order t := by
  unfold canonicalize_order
  rw [List.reverse_reverse]
  by_cases h : pyLt t.reverse t = true
  · rw [if_pos h, if_neg (by simp [pyLt_asymm h])]
  · by_cases h' : pyLt t t.reverse = true
    · rw [if_pos h', if_neg h]
    · have hf : pyLt t t.reverse = false := by simpa using h'
      have hf' : pyLt t.reverse t = false := by simpa using h
      have heq : t = t.reverse := pyLt_conn hf hf'
      rw [if_neg h', if_neg h, ← heq]

theorem canonicalize_order_min_left (t : List ℤ) :
    pyLt t (canonicalize_order t) = false := by
  unfold canonicalize_order
  by_cases h : pyLt t.reverse t = true
  · simp [h, pyLt_asymm h]
  · simp [h, pyLt_irrefl]

theorem canonicalize_order_min_right (t : List ℤ) :
    pyLt t.reverse (canonicalize_order t) = false := by
  unfold canonicalize_order
  by_cases h : pyLt t.reverse t = true
  · simp [h, pyLt_irrefl]
  · simp [h]

theorem canonicalize_order_idem (t : List ℤ) :
    canonicalize_order (canonicalize_order t) = canonicalize_order t := by
  rcases canonicalize_order_cases t with h | h
  · rw [h, h]
  · rw [h, canonicalize_order_reverse, ← h]

/-- C4: `canonicalize_order` returns whichever of the tuple and its full
reversal compares lexicographically smaller (it is one of the two, and is
`≤` both under Python tuple comparison), and it is a pure deterministic
function (equal inputs give equal outputs). -/
theorem claim_C4 (t : List ℤ) :
    (canonicalize_order t = t ∨ canonicalize_order t = t.reverse) ∧
    pyLt t (canonicalize_order t) = false ∧
    pyLt t.reverse (canonicalize_order t) = false ∧
    (∀ s : List ℤ, t = s → canonicalize_order t = canonicalize_order s) := by
  refine ⟨canonicalize_order_cases t, canonicalize_order_min_left t,
    canonicalize_order_min_right t, ?_⟩
  intro s hs
  rw [hs]

/-- Witness for C4 at the concrete tuple `[3, 1]`. -/
theorem claim_C4_witness :
    (canonicalize_order [3, 1] = [3, 1] ∨
      canonicalize_order [3, 1] = List.reverse [3, 1]) ∧
    pyLt [3, 1] (canonicalize_order [3, 1]) = false ∧
    pyLt (List.reverse [3, 1]) (canonicalize_order [3, 1]) = false ∧
    canonicalize_order [3, 1] = canonicalize_order [3, 1] := by
  have h := claim_C4 [3, 1]
  exact ⟨h.1, h.2.1, h.2.2.1, h.2.2.2 [3, 1] rfl⟩

/-- C5: canonicalization preserves tuple length, is invariant under
reversal of its argument, and fixes palindromic tuples. -/
theorem claim_C5 (t : List ℤ) :
    (canonicalize_order t).length = t.length ∧
    canonicalize_order t.reverse = canonicalize_order t ∧
    (t.reverse = t → canonicalize_order t = t) := by
  refine ⟨canonicalize_order_length t, canonicalize_order_reverse t, ?_⟩
  intro hpal
  rcases canonicalize_order_cases t with h | h
  · exact h
  · rw [h, hpal]

/-- Witness for C5 at the palindromic tuple `[1, 2, 1]`, discharging the
palindrome hypothesis concretely. -/
theorem claim_C5_witness :
    (canonicalize_order [1, 2, 1]).length = List.length [1, 2, 1] ∧
    canonicalize_order (List.reverse [1, 2, 1]) = canonicalize_order [1, 2, 1] ∧
    canonicalize_order [1, 2, 1] = [1, 2, 1] := by
  have h := claim_C5 [1, 2, 1]
  exact ⟨h.1, h.2.1, h.2.2 (by decide)⟩

/-- C10: `canonicalize_order t` is always `t` itself or its reversal (hence
preserves the multiset of elements), and `canonicalize_order` is
idempotent. -/
theorem claim_C10 (t : List ℤ) :
    (canonicalize_order t = t ∨ canonicalize_order t = t.reverse) ∧
    ((canonicalize_order t : Multiset ℤ) = (t : Multiset ℤ)) ∧
    canonicalize_order (canonicalize_order t) = canonicalize_order t := by
  refine ⟨canonicalize_order_cases t, ?_, canonicalize_order_idem t⟩
  rcases canonicalize_order_cases t with h | h
  · rw [h]
  · rw [h, Multiset.coe_eq_coe]
    exact List.reverse_perm t

/-- A molecule as the assigners consume it: the Symmetry Oracle's output
(one integer class per atom) and the Topology Enumerator's bond, angle and
proper-torsion index tuples.  Both are external collaborators in the
source. -/
structure Molecule where
  sym : List ℤ
  bonds : List (ℕ × ℕ)
  angles : List (ℕ × ℕ × ℕ)
  propers : List (ℕ × ℕ × ℕ × ℕ)

/-- Option-valued map: models a Python loop whose body can raise (an
out-of-range index aborts the whole call). -/
def optMap (f : α → Option β) : List α → Option (List β)
  | [] => some []
  | a :: as =>
    match f a, optMap f as with
    | some b, some bs => some (b :: bs)
    | _, _ => none

/-- Embedding of `dict(zip(set(tups), range(len(set(tups)))))` followed by
`[map[tup] for tup in tups]`: each key's id is its position in a fixed
duplicate-free enumeration of the key set (first occurrence order here; the
source's hash-set order is unspecified but fixed within one run). -/
def assignIds (keys : List (List ℤ)) : List ℕ :=
  keys.map fun t => @List.indexOf (List ℤ) instBEqOfDecidableEq t keys.dedup

/-- The canonicalized symmetry-class keys of the bonds, one per enumerated
bond: `canonicalize_order((sym[b.atom1_index], sym[b.atom2_index]))`. -/
def bondKeys (mol : Molecule) : Option (List (List ℤ)) :=
  optMap (fun b =>
    match mol.sym.get? b.1, mol.sym.get? b.2 with
    | some s1, some s2 => some (canonicalize_order [s1, s2])
    | _, _ => none) mol.bonds

/-- Embedding of `get_unique_bonds`: returns the raw bond index pairs in
enumeration order and the parallel dense class ids. -/
def get_unique_bonds (mol : Molecule) : Option (List (ℕ × ℕ) × List ℕ) :=
  match bondKeys mol with
  | some keys => some (mol.bonds, assignIds keys)
  | none => none

/-- The canonicalized symmetry-class keys of the angles. -/
def angleKeys (mol : Molecule) : Option (List (List ℤ)) :=
  optMap (fun a =>
    match mol.sym.get? a.1, mol.sym.get? a.2.1, mol.sym.get? a.2.2 with
    | some s1, some s2, some s3 => some (canonicalize_order [s1, s2, s3])
    | _, _, _ => none) mol.angles

/-- Embedding of `get_unique_angles`. -/
def get_unique_angles (mol : Molecule) : Option (List (ℕ × ℕ × ℕ) × List ℕ) :=
  match angleKeys mol with
  | some keys => some (mol.angles, assignIds keys)
  | none => none

/-- The canonicalized symmetry-class keys of the proper torsions. -/
def torsionKeys (mol : Molecule) : Option (List (List ℤ)) :=
  optMap (fun q =>
    match mol.sym.get? q.1, mol.sym.get? q.2.1, mol.sym.get? q.2.2.1,
        mol.sym.get? q.2.2.2 with
    | some s1, some s2, some s3, some s4 =>
      some (canonicalize_order [s1, s2, s3, s4])
    | _, _, _, _ => none) mol.propers

/-- Embedding of `get_unique_torsions`. -/
def get_unique_torsions (mol : Molecule) :
    Option (List (ℕ × ℕ × ℕ × ℕ) × List ℕ) :=
  match torsionKeys mol with
  | some keys => some (mol.propers, assignIds keys)
  | none => none

theorem optMap_length {f : α → Option β} :
    ∀ {l : List α} {l2 : List β}, optMap f l = some l2 → l2.length = l.length
  | [], l2, h => by
    simp only [optMap, Option.some.injEq] at h
    rw [← h]
    rfl
  | a :: as, l2, h => by
    unfold optMap at h
    cases hfa : f a with
    | none => rw [hfa] at h; cases h
    | some b =>
      rw [hfa] at h
      cases hrest : optMap f as with
      | none => rw [hrest] at h; cases h
      | some bs =>
        rw [hrest] at h
        simp only [Option.some.injEq] at h
        rw [← h]
        simp [optMap_length hrest]

theorem assignIds_length (keys : List (List ℤ)) :
    (assignIds keys).length = keys.length := by
  simp [assignIds]

theorem assignIds_mem_iff (keys : List (List ℤ)) (j : ℕ) :
    j ∈ assignIds keys ↔ j < keys.dedup.length := by
  constructor
  · intro hj
    rcases List.mem_map.mp hj with ⟨t, ht, rfl⟩
    exact List.indexOf_lt_length.mpr (List.mem_dedup.mpr ht)
  · intro hj
    have hmem : keys.dedup.get ⟨j, hj⟩ ∈ keys :=
      List.mem_dedup.mp (List.get_mem _ _ _)
    refine List.mem_map.mpr ⟨keys.dedup.get ⟨j, hj⟩, hmem, ?_⟩
    exact List.get_indexOf (List.nodup_dedup keys) ⟨j, hj⟩

theorem dedup_length_le (keys : List (List ℤ)) :
    keys.dedup.length ≤ keys.length :=
  (List.dedup_sublist keys).length_le

/-- C3: each assigner returns an index-tuple array and a class-id array of
equal length (the number of enumerated interactions), the class ids are a
surjection onto `[0, n_unique)`, and `n_unique` is at most the number of
interactions. -/
theorem claim_C3 :
    (∀ (mol : Molecule) (tups : List (ℕ × ℕ)) (ids : List ℕ),
      get_unique_bonds mol = some (tups, ids) →
        tups.length = mol.bonds.length ∧ ids.length = mol.bonds.length ∧
        ∃ n, n ≤ mol.bonds.length ∧ ∀ j, j ∈ ids ↔ j < n) ∧
    (∀ (mol : Molecule) (tups : List (ℕ × ℕ × ℕ)) (ids : List ℕ),
      get_unique_angles mol = some (tups, ids) →
        tups.length = mol.angles.length ∧ ids.length = mol.angles.length ∧
        ∃ n, n ≤ mol.angles.length ∧ ∀ j, j ∈ ids ↔ j < n) ∧
    (∀ (mol : Molecule) (tups : List (ℕ × ℕ × ℕ × ℕ)) (ids : List ℕ),
      get_unique_torsions mol = some (tups, ids) →
        tups.length = mol.propers.length ∧ ids.length = mol.propers.length ∧
        ∃ n, n ≤ mol.propers.length ∧ ∀ j, j ∈ ids ↔ j < n) := by
  refine ⟨?_, ?_, ?_⟩
  · intro mol tups ids h
    unfold get_unique_bonds at h
    cases hk : bondKeys mol with
    | none => rw [hk] at h; cases h
    | some keys =>
      rw [hk] at h
      simp only [Option.some.injEq, Prod.mk.injEq] at h
      obtain ⟨rfl, rfl⟩ := h
      have hkl : keys.length = mol.bonds.length := optMap_length hk
      refine ⟨rfl, by rw [assignIds_length, hkl], keys.dedup.length,
        hkl ▸ dedup_length_le keys, fun j => assignIds_mem_iff keys j⟩
  · intro mol tups ids h
    unfold get_unique_angles at h
    cases hk : angleKeys mol with
    | none => rw [hk] at h; cases h
    | some keys =>
      rw [hk] at h
      simp only [Option.some.injEq, Prod.mk.injEq] at h
      obtain ⟨rfl, rfl⟩ := h
      have hkl : keys.length = mol.angles.length := optMap_length hk
      refine ⟨rfl, by rw [assignIds_length, hkl], keys.dedup.length,
        hkl ▸ dedup_length_le keys, fun j => assignIds_mem_iff keys j⟩
  · intro mol tups ids h
    unfold get_unique_torsions at h
    cases hk : torsionKeys mol with
    | none => rw [hk] at h; cases h
    | some keys =>
      rw [hk] at h
      simp only [Option.some.injEq, Prod.mk.injEq] at h
      obtain ⟨rfl, rfl⟩ := h
      have hkl : keys.length = mol.propers.length := optMap_length hk
      refine ⟨rfl, by rw [assignIds_length, hkl], keys.dedup.length,
        hkl ▸ dedup_length_le keys, fun j => assignIds_mem_iff keys j⟩

/-- The 3-atom A-B-A chain of the spec's concrete scenario, with symmetry
classes `0, 1, 0` and the two bonds `(0,1)` and `(1,2)`. -/
def molABA : Molecule := ⟨[0, 1, 0], [(0, 1), (1, 2)], [], []⟩

/-- Witness for C3, instantiated at the A-B-A molecule. -/
theorem claim_C3_witness :
    List.length [((0 : ℕ), (1 : ℕ)), (1, 2)] = molABA.bonds.length ∧
    List.length [(0 : ℕ), 0] = molABA.bonds.length ∧
    ∃ n, n ≤ molABA.bonds.length ∧ ∀ j, j ∈ [(0 : ℕ), 0] ↔ j < n :=
  claim_C3.1 molABA [(0, 1), (1, 2)] [0, 0] (by decide)

theorem assignIds_getD_eq_iff (keys : List (List ℤ)) (i j : ℕ)
    (hi : i < keys.length) (hj : j < keys.length) :
    ((assignIds keys).getD i 0 = (assignIds keys).getD j 0 ↔
      keys.getD i [] = keys.getD j []) := by
  have hi' : i < (assignIds keys).length := by rw [assignIds_length]; exact hi
  have hj' : j < (assignIds keys).length := by rw [assignIds_length]; exact hj
  rw [List.getD_eq_get _ _ hi', List.getD_eq_get _ _ hj',
    List.getD_eq_get _ _ hi, List.getD_eq_get _ _ hj]
  unfold assignIds
  rw [List.get_map, List.get_map]
  exact List.indexOf_inj (List.mem_dedup.mpr (List.get_mem _ _ _))
    (List.mem_dedup.mpr (List.get_mem _ _ _))

/-- C8: each assigner returns the raw enumerated atom-index tuples
unmodified and in enumeration order, with a parallel class-id array, and two
interactions receive the same class id iff their canonicalized
symmetry-class keys are equal. -/
theorem claim_C8 :
    (∀ (mol : Molecule) (keys : List (List ℤ)) (tups : List (ℕ × ℕ))
      (ids : List ℕ), bondKeys mol = some keys →
      get_unique_bonds mol = some (tups, ids) →
        tups = mol.bonds ∧ ids.length = keys.length ∧
        ∀ i j, i < ids.length → j < ids.length →
          (ids.getD i 0 = ids.getD j 0 ↔ keys.getD i [] = keys.getD j [])) ∧
    (∀ (mol : Molecule) (keys : List (List ℤ)) (tups : List (ℕ × ℕ × ℕ))
      (ids : List ℕ), angleKeys mol = some keys →
      get_unique_angles mol = some (tups, ids) →
        tups = mol.angles ∧ ids.length = keys.length ∧
        ∀ i j, i < ids.length → j < ids.length →
          (ids.getD i 0 = ids.getD j 0 ↔ keys.getD i [] = keys.getD j [])) ∧
    (∀ (mol : Molecule) (keys : List (List ℤ)) (tups : List (ℕ × ℕ × ℕ × ℕ))
      (ids : List ℕ), torsionKeys mol = some keys →
      get_unique_torsions mol = some (tups, ids) →
        tups = mol.propers ∧ ids.length = keys.length ∧
        ∀ i j, i < ids.length → j < ids.length →
          (ids.getD i 0 = ids.getD j 0 ↔ keys.getD i [] = keys.getD j [])) := by
  refine ⟨?_, ?_, ?_⟩
  · intro mol keys tups ids hk h
    rw [get_unique_bonds, hk] at h
    simp only [Option.some.injEq, Prod.mk.injEq] at h
    obtain ⟨rfl, rfl⟩ := h
    refine ⟨rfl, assignIds_length keys, fun i j hi hj => ?_⟩
    rw [assignIds_length] at hi hj
    exact assignIds_getD_eq_iff keys i j hi hj
  · intro mol keys tups ids hk h
    rw [get_unique_angles, hk] at h
    simp only [Option.some.injEq, Prod.mk.injEq] at h
    obtain ⟨rfl, rfl⟩ := h
    refine ⟨rfl, assignIds_length keys, fun i j hi hj => ?_⟩
    rw [assignIds_length] at hi hj
    exact assignIds_getD_eq_iff keys i j hi hj
  · intro mol keys tups ids hk h
    rw [get_unique_torsions, hk] at h
    simp only [Option.some.injEq, Prod.mk.injEq] at h
    obtain ⟨rfl, rfl⟩ := h
    refine ⟨rfl, assignIds_length keys, fun i j hi hj => ?_⟩
    rw [assignIds_length] at hi hj
    exact assignIds_getD_eq_iff keys i j hi hj

/-- Witness for C8, instantiated at the A-B-A molecule. -/
theorem claim_C8_witness :
    [((0 : ℕ), (1 : ℕ)), (1, 2)] = molABA.bonds ∧
    List.length [(0 : ℕ), 0] =
      List.length [canonicalize_order [0, 1], canonicalize_order [1, 0]] ∧
    ∀ i j, i < List.length [(0 : ℕ), 0] → j < List.length [(0 : ℕ), 0] →
      (List.getD [(0 : ℕ), 0] i 0 = List.getD [(0 : ℕ), 0] j 0 ↔
        List.getD [canonicalize_order [0, 1], canonicalize_order [1, 0]] i [] =
        List.getD [canonicalize_order [0, 1], canonicalize_order [1, 0]] j []) :=
  claim_C8.1 molABA [canonicalize_order [0, 1], canonicalize_order [1, 0]]
    [(0, 1), (1, 2)] [0, 0] (by decide) (by decide)

/-- C9: on a linear A-B-A molecule whose terminal atoms share a symmetry
class distinct from the middle atom's, `get_unique_bonds` yields exactly one
unique bond class and gives both bonds the same class id. -/
theorem claim_C9 (a b : ℤ) (_hab : a ≠ b) :
    get_unique_bonds (Molecule.mk [a, b, a] [(0, 1), (1, 2)] [] []) =
      some ([(0, 1), (1, 2)], [0, 0]) ∧
    ∃ keys, bondKeys (Molecule.mk [a, b, a] [(0, 1), (1, 2)] [] []) = some keys ∧
      keys.dedup.length = 1 := by
  have hrev : canonicalize_order [b, a] = canonicalize_order [a, b] := by
    have h := canonicalize_order_reverse [a, b]
    simpa using h
  have hkeys : bondKeys (Molecule.mk [a, b, a] [(0, 1), (1, 2)] [] []) =
      some [canonicalize_order [a, b], canonicalize_order [a, b]] := by
    simp [bondKeys, optMap, hrev]
  have hdedup : ([canonicalize_order [a, b], canonicalize_order [a, b]] :
      List (List ℤ)).dedup = [canonicalize_order [a, b]] := by
    rw [List.dedup_cons_of_mem (List.mem_singleton_self _)]
    simp
  refine ⟨?_, ⟨[canonicalize_order [a, b], canonicalize_order [a, b]], hkeys,
    by rw [hdedup]; rfl⟩⟩
  rw [get_unique_bonds, hkeys]
  simp only [Option.some.injEq, Prod.mk.injEq]
  refine ⟨trivial, ?_⟩
  unfold assignIds
  rw [hdedup]
  simp [List.indexOf_cons_self]

/-- Witness for C9 at symmetry classes `0` and `1`. -/
theorem claim_C9_witness :
    get_unique_bonds (Molecule.mk [0, 1, 0] [(0, 1), (1, 2)] [] []) =
      some ([(0, 1), (1, 2)], [0, 0]) ∧
    ∃ keys, bondKeys (Molecule.mk [0, 1, 0] [(0, 1), (1, 2)] [] []) =
      some keys ∧ keys.dedup.length = 1 :=
  claim_C9 0 1 (by decide)

/-- `n_periodicities = 6` from the source module. -/
def n_periodicities : ℕ := 6

/-- `periodicities = np.arange(n_periodicities) + 1`, the values `1..6`. -/
def periodicities : List ℕ := (List.range n_periodicities).map (· + 1)

/-- One conformation: the 3D coordinates of each atom.  The conformation
source guarantees every atom index of the molecule has coordinates, so a
total function is used. -/
def Conf (R : Type) : Type := ℕ → R × R × R

/-- Modelled from the spec: `harmonic_bond_potential` lives in
`mm_utils.py`, which is not among the analysed sources; the spec gives
`0.5 * k * (r - r0)^2`. -/
def harmonic_bond_potential {R : Type} [LinearOrderedField R] (r k r0 : R) : R :=
  k * (r - r0) ^ 2 / 2

/-- Modelled from the spec: `harmonic_angle_potential` (`mm_utils.py`, not
among the analysed sources), identical harmonic form in the angle. -/
def harmonic_angle_potential {R : Type} [LinearOrderedField R]
    (theta k theta0 : R) : R :=
  k * (theta - theta0) ^ 2 / 2

/-- Modelled from the spec: `periodic_torsion_potential` (`mm_utils.py`,
not among the analysed sources): `sum_j k_j * (1 + cos(n_j*theta -
phase_j))` over parallel lists of spring constants, phases and
periodicities.  `cosR` abstracts the cosine on the scalar field. -/
def periodic_torsion_potential {R : Type} [LinearOrderedField R]
    (cosR : R → R) (theta : R) (ks phases : List R) (ns : List ℕ) : R :=
  ((ks.zip (phases.zip ns)).map
    (fun kpn => kpn.1 * (1 + cosR ((kpn.2.2 : R) * theta - kpn.2.1)))).sum

/-- numpy fancy indexing `a[inds]`: raises when some index is out of
range. -/
def fancyIndex {α : Type} (l : List α) (inds : List ℕ) : Option (List α) :=
  optMap (fun i => l.get? i) inds

/-- The rows of a `(n, rowLen)` reshape: `n` runs of `rowLen` consecutive
entries. -/
def chunkRows {α : Type} : ℕ → ℕ → List α → List (List α)
  | 0, _, _ => []
  | n + 1, r, l => l.take r :: chunkRows n r (l.drop r)

/-- `np.reshape(l, (n, rowLen))`: raises when the size does not match. -/
def reshapeRows {α : Type} (l : List α) (n rowLen : ℕ) :
    Option (List (List α)) :=
  if l.length = n * rowLen then some (chunkRows n rowLen l) else none

/-- Embedding of `compute_harmonic_bond_potential`.  `distFn` abstracts
`compute_distances` (`neural_baseline.py`, not among the analysed sources):
the distance of a bonded pair in one conformation. -/
def compute_harmonic_bond_potential {R : Type} [LinearOrderedField R]
    (distFn : Conf R → ℕ × ℕ → R) (xyz : List (Conf R)) (params : List R)
    (pair_inds : List (ℕ × ℕ)) (bond_inds : List ℕ) : Option (List R) :=
  (fancyIndex (params.take (params.length / 2)) bond_inds).bind fun k =>
    (fancyIndex (params.drop (params.length / 2)) bond_inds).bind fun r0 =>
      some (xyz.map fun conf =>
        (((pair_inds.map (distFn conf)).zip (k.zip r0)).map
          fun x => harmonic_bond_potential x.1 x.2.1 x.2.2).sum)

/-- Embedding of `compute_harmonic_angle_potential`.  `angleFn` abstracts
`compute_angles` (`neural_baseline.py`, not among the analysed sources). -/
def compute_harmonic_angle_potential {R : Type} [LinearOrderedField R]
    (angleFn : Conf R → ℕ × ℕ × ℕ → R) (xyz : List (Conf R))
    (params : List R) (triple_inds : List (ℕ × ℕ × ℕ))
    (angle_inds : List ℕ) : Option (List R) :=
  (fancyIndex (params.take (params.length / 2)) angle_inds).bind fun k =>
    (fancyIndex (params.drop (params.length / 2)) angle_inds).bind fun t0 =>
      some (xyz.map fun conf =>
        (((triple_inds.map (angleFn conf)).zip (k.zip t0)).map
          fun x => harmonic_angle_potential x.1 x.2.1 x.2.2).sum)

/-- Embedding of `compute_periodic_torsion_potential`.  `torsFn` abstracts
`compute_torsions` (`neural_baseline.py`, not among the analysed sources):
the dihedral angle of a quadruple in one conformation. -/
def compute_periodic_torsion_potential {R : Type} [LinearOrderedField R]
    (cosR : R → R) (torsFn : Conf R → ℕ × ℕ × ℕ × ℕ → R)
    (xyz : List (Conf R)) (params : List R)
    (quad_inds : List (ℕ × ℕ × ℕ × ℕ)) (torsion_inds : List ℕ) :
    Option (List R) :=
  (reshapeRows params (params.length / (2 * n_periodicities))
      (2 * n_periodicities)).bind fun rows =>
    (fancyIndex rows torsion_inds).bind fun sel =>
      some (xyz.map fun conf =>
        (((quad_inds.map (torsFn conf)).zip
            ((sel.map (List.take n_periodicities)).zip
              (sel.map (List.drop n_periodicities)))).map
          fun tkp =>
            periodic_torsion_potential cosR tkp.1 tkp.2.1 tkp.2.2
              periodicities).sum)

/-- An evaluator that follows the spec's words for the torsion parameter
layout (all spring constants first, then all phases): class `c`'s six
spring constants are entries `6*c .. 6*c+5` of the first half of the
vector, its six phases the same entries of the second half.  Declared only
to compare the spec's claimed layout with the code's. -/
def torsion_potential_specLayout {R : Type} [LinearOrderedField R]
    (cosR : R → R) (torsFn : Conf R → ℕ × ℕ × ℕ × ℕ → R)
    (xyz : List (Conf R)) (params : List R)
    (quad_inds : List (ℕ × ℕ × ℕ × ℕ)) (torsion_inds : List ℕ) :
    Option (List R) :=
  if params.length = (params.length / (2 * n_periodicities)) *
        (2 * n_periodicities) ∧
      ∀ c ∈ torsion_inds, c < params.length / (2 * n_periodicities) then
    some (xyz.map fun conf =>
      (((quad_inds.map (torsFn conf)).zip (torsion_inds.map fun c =>
          (((params.take ((params.length / (2 * n_periodicities)) *
                n_periodicities)).drop (c * n_periodicities)).take
              n_periodicities,
            ((params.drop ((params.length / (2 * n_periodicities)) *
                n_periodicities)).drop (c * n_periodicities)).take
              n_periodicities))).map
        fun tkp =>
          periodic_torsion_potential cosR tkp.1 tkp.2.1 tkp.2.2
            periodicities).sum)
  else none

theorem optMap_eq_some_of {α β : Type*} (f : α → Option β) (g : α → β) :
    ∀ (l : List α), (∀ a ∈ l, f a = some (g a)) → optMap f l = some (l.map g) := by
  intro l
  induction l with
  | nil => intro _; rfl
  | cons a as ih =>
    intro h
    have ha := h a (List.mem_cons_self a as)
    have hrest := ih fun x hx => h x (List.mem_cons_of_mem a hx)
    simp [optMap, ha, hrest]

theorem take_get?_eq {α : Type} (l : List α) (nn c : ℕ) (d : α) (hc : c < nn)
    (hl : c < l.length) : (l.take nn).get? c = some (l.getD c d) := by
  rw [List.get?_eq_getElem?, List.getElem?_take_of_lt hc,
    List.getElem?_eq_getElem hl, List.getD_eq_getElem l d hl]

theorem drop_get?_eq {α : Type} (l : List α) (nn c : ℕ) (d : α)
    (hl : nn + c < l.length) :
    (l.drop nn).get? c = some (l.getD (nn + c) d) := by
  rw [List.get?_eq_getElem?, List.getElem?_drop,
    List.getElem?_eq_getElem hl, List.getD_eq_getElem l d hl]

/-- C6: for an even-length parameter vector `2*n` and in-range class ids,
the bond evaluator reads each bond's spring constant from the first half
(entry = class id) and its equilibrium length from the second half (entry =
`n` + class id), and returns one scalar per conformation: the sum of the
per-bond harmonic contributions. -/
theorem claim_C6 {R : Type} [LinearOrderedField R]
    (distFn : Conf R → ℕ × ℕ → R) (xyz : List (Conf R)) (params : List R)
    (pair_inds : List (ℕ × ℕ)) (bond_inds : List ℕ) (n : ℕ)
    (hlen : params.length = 2 * n) (hinds : ∀ c ∈ bond_inds, c < n) :
    compute_harmonic_bond_potential distFn xyz params pair_inds bond_inds =
      some (xyz.map fun conf =>
        (((pair_inds.map (distFn conf)).zip (bond_inds.map fun c =>
            (params.getD c 0, params.getD (n + c) 0))).map
          fun x => harmonic_bond_potential x.1 x.2.1 x.2.2).sum) ∧
    ∀ out, compute_harmonic_bond_potential distFn xyz params pair_inds
        bond_inds = some out → out.length = xyz.length := by
  have hn : params.length / 2 = n := by
    rw [hlen]
    exact Nat.mul_div_cancel_left n (by norm_num)
  have hk : fancyIndex (params.take (params.length / 2)) bond_inds =
      some (bond_inds.map fun c => params.getD c 0) := by
    apply optMap_eq_some_of
    intro c hc
    have hcn : c < n := hinds c hc
    rw [hn]
    exact take_get?_eq params n c 0 hcn (by omega)
  have hr0 : fancyIndex (params.drop (params.length / 2)) bond_inds =
      some (bond_inds.map fun c => params.getD (n + c) 0) := by
    apply optMap_eq_some_of
    intro c hc
    have hcn : c < n := hinds c hc
    rw [hn]
    exact drop_get?_eq params n c 0 (by omega)
  have heq : compute_harmonic_bond_potential distFn xyz params pair_inds
      bond_inds =
      some (xyz.map fun conf =>
        (((pair_inds.map (distFn conf)).zip (bond_inds.map fun c =>
            (params.getD c 0, params.getD (n + c) 0))).map
          fun x => harmonic_bond_potential x.1 x.2.1 x.2.2).sum) := by
    unfold compute_harmonic_bond_potential
    rw [hk, hr0]
    simp only [Option.some_bind, List.zip_map']
  refine ⟨heq, ?_⟩
  intro out hout
  rw [heq] at hout
  simp only [Option.some.injEq] at hout
  rw [← hout]
  simp

/-- Witness for C6: one bond of class 0, parameters `[k, r0] = [1, 2]`, one
conformation, distance function constant `0`; the energy is
`1 * (0 - 2)^2 / 2 = 2`. -/
theorem claim_C6_witness :
    List.length [(1 : ℚ), 2] = 2 * 1 ∧
    compute_harmonic_bond_potential (fun _ _ => (0 : ℚ))
      [fun _ => (0, 0, 0)] [1, 2] [(0, 1)] [0] = some [2] := by
  have h := claim_C6 (fun _ _ => (0 : ℚ)) [fun _ => (0, 0, 0)] [1, 2]
    [(0, 1)] [0] 1 (by decide) (by decide)
  refine ⟨by decide, ?_⟩
  rw [h.1]
  norm_num [harmonic_bond_potential]

theorem chunkRows_length {α : Type} :
    ∀ (n r : ℕ) (l : List α), (chunkRows n r l).length = n
  | 0, _, _ => rfl
  | n + 1, r, l => by simp [chunkRows, chunkRows_length n r]

theorem chunkRows_get? {α : Type} :
    ∀ (n r : ℕ) (l : List α) (c : ℕ), c < n →
      (chunkRows n r l).get? c = some ((l.drop (c * r)).take r)
  | 0, _, _, c, h => absurd h (Nat.not_lt_zero c)
  | n + 1, r, l, 0, _ => by simp [chunkRows]
  | n + 1, r, l, c + 1, h => by
    show (chunkRows n r (l.drop r)).get? c = _
    rw [chunkRows_get? n r (l.drop r) c (Nat.lt_of_succ_lt_succ h),
      List.drop_drop]
    have harith : r + c * r = (c + 1) * r := by ring
    rw [harith]

theorem periodic_torsion_getD {R : Type} [LinearOrderedField R]
    (cosR : R → R) (theta : R) :
    ∀ (ks phases : List R) (ns : List ℕ), ks.length = phases.length →
      phases.length = ns.length →
      periodic_torsion_potential cosR theta ks phases ns =
        ((List.range ks.length).map fun j =>
          ks.getD j 0 * (1 + cosR ((ns.getD j 0 : ℕ) * theta -
            phases.getD j 0))).sum
  | [], [], _, _, _ => by simp [periodic_torsion_potential]
  | [], p :: ps, _, h, _ => by simp at h
  | k :: ks, [], _, h, _ => by simp at h
  | k :: ks, p :: ps, [], _, h => by simp at h
  | k :: ks, p :: ps, m :: ns, h1, h2 => by
    have ih := periodic_torsion_getD cosR theta ks ps ns
      (by simpa using h1) (by simpa using h2)
    have hL : periodic_torsion_potential cosR theta (k :: ks) (p :: ps)
        (m :: ns) = k * (1 + cosR ((m : R) * theta - p)) +
          periodic_torsion_potential cosR theta ks ps ns := by
      simp [periodic_torsion_potential]
    have hR : ((List.range (k :: ks).length).map fun j =>
        (k :: ks).getD j 0 * (1 + cosR (((m :: ns).getD j 0 : ℕ) * theta -
          (p :: ps).getD j 0))).sum =
        k * (1 + cosR ((m : R) * theta - p)) +
        ((List.range ks.length).map fun j =>
          ks.getD j 0 * (1 + cosR ((ns.getD j 0 : ℕ) * theta -
            ps.getD j 0))).sum := by
      rw [List.length_cons, List.range_succ_eq_map, List.map_cons,
        List.sum_cons, List.map_map]
      simp only [List.getD_cons_zero, List.getD_cons_succ]
      congr 1
    rw [hL, ih, hR]

theorem torsion_eval_layout {R : Type} [LinearOrderedField R]
    (cosR : R → R) (torsFn : Conf R → ℕ × ℕ × ℕ × ℕ → R)
    (xyz : List (Conf R)) (params : List R)
    (quad_inds : List (ℕ × ℕ × ℕ × ℕ)) (torsion_inds : List ℕ) (n : ℕ)
    (hlen : params.length = n * (2 * n_periodicities))
    (hinds : ∀ c ∈ torsion_inds, c < n) :
    compute_periodic_torsion_potential cosR torsFn xyz params quad_inds
        torsion_inds =
      some (xyz.map fun conf =>
        (((quad_inds.map (torsFn conf)).zip (torsion_inds.map fun c =>
            ((params.drop (c * (2 * n_periodicities))).take n_periodicities,
              ((params.drop (c * (2 * n_periodicities))).drop
                n_periodicities).take n_periodicities))).map
          fun tkp =>
            periodic_torsion_potential cosR tkp.1 tkp.2.1 tkp.2.2
              periodicities).sum) := by
  have hn : params.length / (2 * n_periodicities) = n := by
    rw [hlen]
    exact Nat.mul_div_cancel n (by norm_num [n_periodicities])
  have hresh : reshapeRows params
      (params.length / (2 * n_periodicities)) (2 * n_periodicities) =
      some (chunkRows n (2 * n_periodicities) params) := by
    rw [hn, reshapeRows, if_pos hlen]
  have hfancy : fancyIndex (chunkRows n (2 * n_periodicities) params)
      torsion_inds =
      some (torsion_inds.map fun c =>
        (params.drop (c * (2 * n_periodicities))).take
          (2 * n_periodicities)) := by
    apply optMap_eq_some_of
    intro c hc
    exact chunkRows_get? n (2 * n_periodicities) params c (hinds c hc)
  unfold compute_periodic_torsion_potential
  rw [hresh]
  simp only [Option.some_bind]
  rw [hfancy]
  simp only [Option.some_bind, List.zip_map', List.map_map]
  have hfinal : List.map ((fun a =>
      (List.take n_periodicities a, List.drop n_periodicities a)) ∘ fun c =>
        List.take (2 * n_periodicities)
          (List.drop (c * (2 * n_periodicities)) params)) torsion_inds =
      List.map (fun c =>
        (List.take n_periodicities
            (List.drop (c * (2 * n_periodicities)) params),
          List.take n_periodicities
            (List.drop n_periodicities
              (List.drop (c * (2 * n_periodicities)) params)))) torsion_inds := by
    apply List.map_congr_left
    intro c _
    simp only [Function.comp_apply, List.take_take, List.drop_take,
      Prod.mk.injEq]
    refine ⟨?_, ?_⟩
    · rw [Nat.min_eq_left (by norm_num [n_periodicities])]
    · norm_num [n_periodicities]
  simp only [hfinal]

theorem torsion_formula_range {R : Type} [LinearOrderedField R]
    (cosR : R → R) (theta : R) (ks phases : List R)
    (hks : ks.length = n_periodicities)
    (hph : phases.length = n_periodicities) :
    periodic_torsion_potential cosR theta ks phases periodicities =
      ((List.range n_periodicities).map fun j =>
        ks.getD j 0 * (1 + cosR ((j + 1 : ℕ) * theta -
          phases.getD j 0))).sum := by
  have hlks : ks.length = phases.length := by rw [hks, hph]
  have hlph : phases.length = periodicities.length := by
    rw [hph]
    simp [periodicities]
  rw [periodic_torsion_getD cosR theta ks phases periodicities hlks hlph,
    hks]
  refine congrArg List.sum (List.map_congr_left ?_)
  intro j hj
  have hj6 : j < n_periodicities := List.mem_range.mp hj
  have hper : periodicities.getD j 0 = j + 1 := by
    rw [List.getD_eq_getElem]
    · simp [periodicities]
    · simpa [periodicities] using hj6
  rw [hper]

/-- C1 (amended): the torsion ParameterVector is laid out in per-class
blocks of `2*P` entries: class `c` occupies entries `12*c .. 12*c + 11`,
the first six being its spring constants `k_1..k_6` and the last six its
phases `phase_1..phase_6` (not all k's first and all phases second).  With
a well-sized vector and in-range class ids, each conformation's energy is
the sum over torsion instances of
`sum_{j=1..6} k_j * (1 + cos(j*theta - phase_j))` with the k's and phases
of the instance's class read from that layout. -/
theorem claim_C1_amended {R : Type} [LinearOrderedField R]
    (cosR : R → R) (torsFn : Conf R → ℕ × ℕ × ℕ × ℕ → R)
    (xyz : List (Conf R)) (params : List R)
    (quad_inds : List (ℕ × ℕ × ℕ × ℕ)) (torsion_inds : List ℕ) (n : ℕ)
    (hlen : params.length = n * (2 * n_periodicities))
    (hinds : ∀ c ∈ torsion_inds, c < n) :
    compute_periodic_torsion_potential cosR torsFn xyz params quad_inds
        torsion_inds =
      some (xyz.map fun conf =>
        (((quad_inds.map (torsFn conf)).zip (torsion_inds.map fun c =>
            ((params.drop (c * (2 * n_periodicities))).take n_periodicities,
              ((params.drop (c * (2 * n_periodicities))).drop
                n_periodicities).take n_periodicities))).map
          fun tkp =>
            periodic_torsion_potential cosR tkp.1 tkp.2.1 tkp.2.2
              periodicities).sum) ∧
    ∀ (theta : R) (ks phases : List R), ks.length = n_periodicities →
      phases.length = n_periodicities →
      periodic_torsion_potential cosR theta ks phases periodicities =
        ((List.range n_periodicities).map fun j =>
          ks.getD j 0 * (1 + cosR ((j + 1 : ℕ) * theta - phases.getD j 0))).sum :=
  ⟨torsion_eval_layout cosR torsFn xyz params quad_inds torsion_inds n hlen
    hinds,
   fun theta ks phases hks hph =>
    torsion_formula_range cosR theta ks phases hks hph⟩

/-- C1 counterexample: with two classes (24 parameters), a single torsion
of class 1, constant-zero cosine and dihedral, and the parameter vector
whose entries 12..17 are `1` and all others `0`, the code's evaluator
returns `[6]` (it reads class 1's spring constants from entries 12..17, the
per-class-block layout), while an evaluator following the spec's claimed
layout (all k's first: class 1's k's at entries 6..11, which are `0` here)
returns `[0]`.  The spec's layout sentence is therefore false of the
code. -/
theorem claim_C1_counterexample :
    compute_periodic_torsion_potential (fun _ => (0 : ℚ)) (fun _ _ => 0)
      [fun _ => (0, 0, 0)]
      [0, 0, 0, 0, 0, 0, 0, 0, 0, 0, 0, 0, 1, 1, 1, 1, 1, 1, 0, 0, 0, 0, 0, 0]
      [(0, 1, 2, 3)] [1] = some [6] ∧
    torsion_potential_specLayout (fun _ => (0 : ℚ)) (fun _ _ => 0)
      [fun _ => (0, 0, 0)]
      [0, 0, 0, 0, 0, 0, 0, 0, 0, 0, 0, 0, 1, 1, 1, 1, 1, 1, 0, 0, 0, 0, 0, 0]
      [(0, 1, 2, 3)] [1] = some [0] := by
  constructor
  · rw [torsion_eval_layout (fun _ => (0 : ℚ)) (fun _ _ => 0) _ _ _ _ 2
      (by norm_num [n_periodicities]) (by decide)]
    norm_num [periodic_torsion_potential, periodicities, n_periodicities,
      show List.range 6 = [0, 1, 2, 3, 4, 5] from rfl]
  · norm_num [torsion_potential_specLayout, periodic_torsion_potential,
      periodicities, n_periodicities,
      show List.range 6 = [0, 1, 2, 3, 4, 5] from rfl]

/-- Witness for the amended C1: one class, parameters
`[k_1..k_6, phase_1..phase_6] = [1,1,1,1,1,1, 0,0,0,0,0,0]`, one torsion of
class 0, constant-zero cosine: the energy is `6 * 1 * (1 + 0) = 6`. -/
theorem claim_C1_witness :
    List.length [(1 : ℚ), 1, 1, 1, 1, 1, 0, 0, 0, 0, 0, 0] =
      1 * (2 * n_periodicities) ∧
    compute_periodic_torsion_potential (fun _ => (0 : ℚ)) (fun _ _ => 0)
      [fun _ => (0, 0, 0)] [1, 1, 1, 1, 1, 1, 0, 0, 0, 0, 0, 0]
      [(0, 1, 2, 3)] [0] = some [6] ∧
    periodic_torsion_potential (fun _ => (0 : ℚ)) 0 [1, 1, 1, 1, 1, 1]
      [0, 0, 0, 0, 0, 0] periodicities =
      ((List.range n_periodicities).map fun j =>
        List.getD [(1 : ℚ), 1, 1, 1, 1, 1] j 0 *
          (1 + (0 : ℚ))).sum := by
  have h := claim_C1_amended (fun _ => (0 : ℚ)) (fun _ _ => 0)
    [fun _ => (0, 0, 0)] [1, 1, 1, 1, 1, 1, 0, 0, 0, 0, 0, 0]
    [(0, 1, 2, 3)] [0] 1 (by norm_num [n_periodicities]) (by decide)
  refine ⟨by norm_num [n_periodicities], ?_, ?_⟩
  · rw [h.1]
    norm_num [periodic_torsion_potential, periodicities, n_periodicities,
      show List.range 6 = [0, 1, 2, 3, 4, 5] from rfl]
  · exact h.2 0 [1, 1, 1, 1, 1, 1] [0, 0, 0, 0, 0, 0]
      (by norm_num [n_periodicities]) (by norm_num [n_periodicities])

/-- C2 counterexample: a parameter vector of length 3 (not a multiple of
`2 * n_unique = 2` for the single bond class used here) does not make the
bond evaluator fail: it silently splits the vector as
`ks = [1]`, `r0s = [2, 3]` and returns the energy `1 * (0 - 2)^2 / 2 = 2`. -/
theorem claim_C2_counterexample :
    ¬ (2 ∣ List.length [(1 : ℚ), 2, 3]) ∧
    compute_harmonic_bond_potential (fun _ _ => (0 : ℚ))
      [fun _ => (0, 0, 0)] [1, 2, 3] [(0, 1)] [0] = some [2] := by
  refine ⟨by decide, ?_⟩
  norm_num [compute_harmonic_bond_potential, fancyIndex, optMap,
    harmonic_bond_potential]

/-- C2 (amended): only the torsion evaluator fails fast on a bad parameter
length, and only when the length is not a multiple of
`2 * P = 12` (the numpy reshape raises); the bond and angle evaluators
perform no length check: on a vector whose length is not a multiple of
`2 * n_unique` they silently compute from the floor-half split
(`ks = params[:len//2]`, `x0s = params[len//2:]`), failing only if a class
id indexes past the end of a half. -/
theorem claim_C2_amended :
    (∀ (R : Type) (_inst : LinearOrderedField R) (cosR : R → R)
      (torsFn : Conf R → ℕ × ℕ × ℕ × ℕ → R) (xyz : List (Conf R))
      (params : List R) (quad_inds : List (ℕ × ℕ × ℕ × ℕ))
      (torsion_inds : List ℕ),
      ¬ (2 * n_periodicities ∣ params.length) →
      compute_periodic_torsion_potential cosR torsFn xyz params quad_inds
        torsion_inds = none) ∧
    (compute_harmonic_bond_potential (fun _ _ => (0 : ℚ))
      [fun _ => (0, 0, 0)] [1, 2, 3] [(0, 1)] [0]).isSome = true ∧
    (compute_harmonic_angle_potential (fun _ _ => (0 : ℚ))
      [fun _ => (0, 0, 0)] [1, 2, 3] [(0, 1, 2)] [0]).isSome = true := by
  refine ⟨?_, ?_, ?_⟩
  · intro R _inst cosR torsFn xyz params quad_inds torsion_inds hdvd
    have hne : params.length ≠
        params.length / (2 * n_periodicities) * (2 * n_periodicities) := by
      intro heq
      exact hdvd (Dvd.intro_left _ heq.symm)
    unfold compute_periodic_torsion_potential reshapeRows
    rw [if_neg hne]
    rfl
  · norm_num [compute_harmonic_bond_potential, fancyIndex, optMap,
      harmonic_bond_potential]
  · norm_num [compute_harmonic_angle_potential, fancyIndex, optMap,
      harmonic_angle_potential]

/-- Witness for the amended C2: a torsion parameter vector of length 1
(not a multiple of 12) makes the torsion evaluator fail. -/
theorem claim_C2_witness :
    compute_periodic_torsion_potential (fun _ => (0 : ℚ)) (fun _ _ => 0)
      [fun _ => (0, 0, 0)] [1] [(0, 1, 2, 3)] [0] = none ∧
    (compute_harmonic_bond_potential (fun _ _ => (0 : ℚ))
      [fun _ => (0, 0, 0)] [1, 2, 3] [(0, 1)] [0]).isSome = true ∧
    (compute_harmonic_angle_potential (fun _ _ => (0 : ℚ))
      [fun _ => (0, 0, 0)] [1, 2, 3] [(0, 1, 2)] [0]).isSome = true :=
  ⟨claim_C2_amended.1 ℚ inferInstance (fun _ => 0) (fun _ _ => 0)
      [fun _ => (0, 0, 0)] [1] [(0, 1, 2, 3)] [0] (by decide),
    claim_C2_amended.2.1, claim_C2_amended.2.2⟩

/-- C7: a molecule with no proper torsions makes the assigner return empty
index-tuple and class-id arrays (so `n_unique = 0`) without failing, and
the torsion evaluator on those empty arrays with a zero-length parameter
vector succeeds, returning energy `0` for every conformation. -/
theorem claim_C7 :
    (∀ mol : Molecule, mol.propers = [] →
      get_unique_torsions mol = some ([], []) ∧
      ([] : List ℕ).dedup.length = 0) ∧
    (∀ (R : Type) (_inst : LinearOrderedField R) (cosR : R → R)
      (torsFn : Conf R → ℕ × ℕ × ℕ × ℕ → R) (xyz : List (Conf R)),
      compute_periodic_torsion_potential cosR torsFn xyz [] [] [] =
        some (xyz.map fun _ => 0)) := by
  constructor
  · intro mol hprop
    refine ⟨?_, rfl⟩
    unfold get_unique_torsions torsionKeys
    rw [hprop]
    rfl
  · intro R _inst cosR torsFn xyz
    unfold compute_periodic_torsion_potential reshapeRows
    norm_num [chunkRows, fancyIndex, optMap]

/-- Witness for C7: the A-B-A molecule has no torsions; the evaluator over
`ℚ` on one conformation returns `[0]`. -/
theorem claim_C7_witness :
    (get_unique_torsions molABA = some ([], []) ∧
      ([] : List ℕ).dedup.length = 0) ∧
    compute_periodic_torsion_potential (fun _ => (0 : ℚ)) (fun _ _ => 0)
      [fun _ => (0, 0, 0)] [] [] [] =
      some (List.map (fun _ => 0)
        ([fun _ => ((0 : ℚ), 0, 0)] : List (Conf ℚ))) :=
  ⟨claim_C7.1 molABA rfl,
    claim_C7.2 ℚ inferInstance (fun _ => 0) (fun _ _ => 0)
      [fun _ => (0, 0, 0)]⟩
